import Mathlib

/-!
Shallow embedding of the VLURes benchmark harness scripts
(`download_data.py`, `run_zeroshot_no_rationales.py`,
`run_zeroshot_with_rationales.py`, `run_evaluation.py`) and proofs about
their checkpointed, resumable, retry-driven batch-processing pipeline.

Remote calls are modelled by oracles (`Nat → outcome`): the outcome of the
n-th invocation of the remote endpoint for one item/batch.  File-system
effects are modelled as explicit event lists folded over an abstract state.
-/

namespace VLURes

/-- `MAX_RETRIES = 3` in all three pipeline scripts. -/
def MAX_RETRIES : Nat := 3

/-!  ### `clip_score` (run_evaluation.py)

`clip_score` first runs `float(score)`; the `Option ℚ` input models the
outcome of that coercion: `some s` when the input is coercible to the
number `s`, `none` when `float` raises (`ValueError`/`TypeError`). -/

/-- Embedding of `clip_score`: clamp a coercible score into `[0, 100]`,
reject a non-coercible one with `none`. -/
def clip_score (score : Option ℚ) : Option ℚ :=
  match score with
  | Option.none => Option.none
  | Option.some s => if s < 0 then some 0 else if s > 100 then some 100 else some s

/-!  ### `evaluate_one_item` (run_evaluation.py)

One remote attempt ends in one of the code's failure/success paths:
a `requests` exception (including `raise_for_status`), a `KeyError` /
`IndexError` while navigating the response JSON, a `json.JSONDecodeError`
on the cleaned text, or a successfully parsed `score_data` whose
`"score"` field is the given value (after the `float` coercion attempt,
hence `Option ℚ` as in `clip_score`). -/

inductive JudgeAttempt where
  | requestError
  | badStructure
  | jsonDecodeError
  | parsed (score : Option ℚ)
deriving DecidableEq

/-- The score a single attempt yields, if any: only a parsed response whose
`"score"` field survives `clip_score` produces a result; every other path
falls through to the retry check. -/
def attemptScore : JudgeAttempt → Option ℚ
  | JudgeAttempt.parsed v => clip_score v
  | _ => Option.none

/-- Embedding of `evaluate_one_item`'s control flow: attempt the call, on a
usable score return it, otherwise retry while `retry_count < MAX_RETRIES`,
and on exhaustion return the default score `50`. -/
def evaluate_one_item (trace : Nat → JudgeAttempt) (retry_count : Nat) : ℚ :=
  match attemptScore (trace retry_count) with
  | Option.some s => s
  | Option.none =>
      if h : retry_count < MAX_RETRIES then
        evaluate_one_item trace (retry_count + 1)
      else
        50
termination_by MAX_RETRIES + 1 - retry_count
decreasing_by omega

/-- Number of remote invocations `evaluate_one_item` performs (each entry
into the function body posts exactly one request). -/
def evaluateCalls (trace : Nat → JudgeAttempt) (retry_count : Nat) : Nat :=
  match attemptScore (trace retry_count) with
  | Option.some _ => 1
  | Option.none =>
      if h : retry_count < MAX_RETRIES then
        1 + evaluateCalls trace (retry_count + 1)
      else
        1
termination_by MAX_RETRIES + 1 - retry_count
decreasing_by omega

/-!  ### `process_batch` (identical in both inference scripts)

An attempt either raises (modelled `none`) or returns the stripped
response content (modelled `some s`). -/

/-- Embedding of `process_batch`: attempt the call, return the content on
success, retry while `retry_count < MAX_RETRIES`, return `None` on
exhaustion ("Max retries reached. Skipping this batch."). -/
def process_batch (trace : Nat → Option String) (retry_count : Nat) : Option String :=
  match trace retry_count with
  | Option.some s => Option.some s
  | Option.none =>
      if h : retry_count < MAX_RETRIES then
        process_batch trace (retry_count + 1)
      else
        Option.none
termination_by MAX_RETRIES + 1 - retry_count
decreasing_by omega

/-- Number of remote invocations `process_batch` performs. -/
def processCalls (trace : Nat → Option String) (retry_count : Nat) : Nat :=
  match trace retry_count with
  | Option.some _ => 1
  | Option.none =>
      if h : retry_count < MAX_RETRIES then
        1 + processCalls trace (retry_count + 1)
      else
        1
termination_by MAX_RETRIES + 1 - retry_count
decreasing_by omega

/-!  ### Unfolding lemmas for the retry recursions -/

theorem evaluate_one_item_success {trace : Nat → JudgeAttempt} {rc : Nat} {s : ℚ}
    (h : attemptScore (trace rc) = Option.some s) :
    evaluate_one_item trace rc = s := by
  rw [evaluate_one_item, h]

theorem evaluate_one_item_fail_lt {trace : Nat → JudgeAttempt} {rc : Nat}
    (h : attemptScore (trace rc) = Option.none) (hlt : rc < MAX_RETRIES) :
    evaluate_one_item trace rc = evaluate_one_item trace (rc + 1) := by
  rw [evaluate_one_item, h]
  simp [hlt]

theorem evaluate_one_item_fail_ge {trace : Nat → JudgeAttempt} {rc : Nat}
    (h : attemptScore (trace rc) = Option.none) (hge : ¬ rc < MAX_RETRIES) :
    evaluate_one_item trace rc = 50 := by
  rw [evaluate_one_item, h]
  simp [hge]

theorem evaluateCalls_success {trace : Nat → JudgeAttempt} {rc : Nat} {s : ℚ}
    (h : attemptScore (trace rc) = Option.some s) :
    evaluateCalls trace rc = 1 := by
  rw [evaluateCalls, h]

theorem evaluateCalls_fail_lt {trace : Nat → JudgeAttempt} {rc : Nat}
    (h : attemptScore (trace rc) = Option.none) (hlt : rc < MAX_RETRIES) :
    evaluateCalls trace rc = 1 + evaluateCalls trace (rc + 1) := by
  rw [evaluateCalls, h]
  simp [hlt]

theorem evaluateCalls_fail_ge {trace : Nat → JudgeAttempt} {rc : Nat}
    (h : attemptScore (trace rc) = Option.none) (hge : ¬ rc < MAX_RETRIES) :
    evaluateCalls trace rc = 1 := by
  rw [evaluateCalls, h]
  simp [hge]

theorem process_batch_success {trace : Nat → Option String} {rc : Nat} {s : String}
    (h : trace rc = Option.some s) :
    process_batch trace rc = Option.some s := by
  rw [process_batch, h]

theorem process_batch_fail_lt {trace : Nat → Option String} {rc : Nat}
    (h : trace rc = Option.none) (hlt : rc < MAX_RETRIES) :
    process_batch trace rc = process_batch trace (rc + 1) := by
  rw [process_batch, h]
  simp [hlt]

theorem process_batch_fail_ge {trace : Nat → Option String} {rc : Nat}
    (h : trace rc = Option.none) (hge : ¬ rc < MAX_RETRIES) :
    process_batch trace rc = Option.none := by
  rw [process_batch, h]
  simp [hge]

theorem processCalls_success {trace : Nat → Option String} {rc : Nat} {s : String}
    (h : trace rc = Option.some s) :
    processCalls trace rc = 1 := by
  rw [processCalls, h]

theorem processCalls_fail_lt {trace : Nat → Option String} {rc : Nat}
    (h : trace rc = Option.none) (hlt : rc < MAX_RETRIES) :
    processCalls trace rc = 1 + processCalls trace (rc + 1) := by
  rw [processCalls, h]
  simp [hlt]

theorem processCalls_fail_ge {trace : Nat → Option String} {rc : Nat}
    (h : trace rc = Option.none) (hge : ¬ rc < MAX_RETRIES) :
    processCalls trace rc = 1 := by
  rw [processCalls, h]
  simp [hge]

/-!  ### Retry budget facts -/

theorem evaluateCalls_le_aux (trace : Nat → JudgeAttempt) :
    ∀ n rc, MAX_RETRIES - rc ≤ n → evaluateCalls trace rc ≤ n + 1 := by
  intro n
  induction n with
  | zero =>
      intro rc h
      have hge : ¬ rc < MAX_RETRIES := by omega
      cases hs : attemptScore (trace rc) with
      | none => rw [evaluateCalls_fail_ge hs hge]
      | some s => rw [evaluateCalls_success hs]
  | succ n ih =>
      intro rc h
      cases hs : attemptScore (trace rc) with
      | none =>
          by_cases hlt : rc < MAX_RETRIES
          · rw [evaluateCalls_fail_lt hs hlt]
            have := ih (rc + 1) (by omega)
            omega
          · rw [evaluateCalls_fail_ge hs hlt]
            omega
      | some s =>
          rw [evaluateCalls_success hs]
          omega

theorem processCalls_le_aux (trace : Nat → Option String) :
    ∀ n rc, MAX_RETRIES - rc ≤ n → processCalls trace rc ≤ n + 1 := by
  intro n
  induction n with
  | zero =>
      intro rc h
      have hge : ¬ rc < MAX_RETRIES := by omega
      cases hs : trace rc with
      | none => rw [processCalls_fail_ge hs hge]
      | some s => rw [processCalls_success hs]
  | succ n ih =>
      intro rc h
      cases hs : trace rc with
      | none =>
          by_cases hlt : rc < MAX_RETRIES
          · rw [processCalls_fail_lt hs hlt]
            have := ih (rc + 1) (by omega)
            omega
          · rw [processCalls_fail_ge hs hlt]
            omega
      | some s =>
          rw [processCalls_success hs]
          omega

theorem evaluate_first_success_aux (trace : Nat → JudgeAttempt) (s : ℚ) :
    ∀ d K rc, rc + d = K → K ≤ MAX_RETRIES →
      (∀ j, rc ≤ j → j < K → attemptScore (trace j) = Option.none) →
      attemptScore (trace K) = Option.some s →
      evaluate_one_item trace rc = s ∧ evaluateCalls trace rc = d + 1 := by
  intro d
  induction d with
  | zero =>
      intro K rc hrc hK hfail hsucc
      have : rc = K := by omega
      subst this
      exact ⟨evaluate_one_item_success hsucc, evaluateCalls_success hsucc⟩
  | succ d ih =>
      intro K rc hrc hK hfail hsucc
      have hlt : rc < MAX_RETRIES := by omega
      have hf : attemptScore (trace rc) = Option.none := hfail rc (le_refl rc) (by omega)
      have hrest := ih K (rc + 1) (by omega) hK
        (fun j hj hjK => hfail j (by omega) hjK) hsucc
      constructor
      · rw [evaluate_one_item_fail_lt hf hlt]
        exact hrest.1
      · rw [evaluateCalls_fail_lt hf hlt, hrest.2]
        omega

theorem process_first_success_aux (trace : Nat → Option String) (s : String) :
    ∀ d K rc, rc + d = K → K ≤ MAX_RETRIES →
      (∀ j, rc ≤ j → j < K → trace j = Option.none) →
      trace K = Option.some s →
      process_batch trace rc = Option.some s ∧ processCalls trace rc = d + 1 := by
  intro d
  induction d with
  | zero =>
      intro K rc hrc hK hfail hsucc
      have : rc = K := by omega
      subst this
      exact ⟨process_batch_success hsucc, processCalls_success hsucc⟩
  | succ d ih =>
      intro K rc hrc hK hfail hsucc
      have hlt : rc < MAX_RETRIES := by omega
      have hf : trace rc = Option.none := hfail rc (le_refl rc) (by omega)
      have hrest := ih K (rc + 1) (by omega) hK
        (fun j hj hjK => hfail j (by omega) hjK) hsucc
      constructor
      · rw [process_batch_fail_lt hf hlt]
        exact hrest.1
      · rw [processCalls_fail_lt hf hlt, hrest.2]
        omega

theorem evaluate_all_fail (trace : Nat → JudgeAttempt)
    (h : ∀ j, j ≤ MAX_RETRIES → attemptScore (trace j) = Option.none) :
    evaluate_one_item trace 0 = 50 ∧ evaluateCalls trace 0 = MAX_RETRIES + 1 := by
  have h0 := h 0 (by decide)
  have h1 := h 1 (by decide)
  have h2 := h 2 (by decide)
  have h3 := h 3 (by decide)
  have l0 : (0 : Nat) < MAX_RETRIES := by decide
  have l1 : (1 : Nat) < MAX_RETRIES := by decide
  have l2 : (2 : Nat) < MAX_RETRIES := by decide
  have l3 : ¬ (3 : Nat) < MAX_RETRIES := by decide
  constructor
  · rw [evaluate_one_item_fail_lt h0 l0, evaluate_one_item_fail_lt h1 l1,
      evaluate_one_item_fail_lt h2 l2, evaluate_one_item_fail_ge h3 l3]
  · rw [evaluateCalls_fail_lt h0 l0, evaluateCalls_fail_lt h1 l1,
      evaluateCalls_fail_lt h2 l2, evaluateCalls_fail_ge h3 l3]
    decide

theorem process_all_fail (trace : Nat → Option String)
    (h : ∀ j, j ≤ MAX_RETRIES → trace j = Option.none) :
    process_batch trace 0 = Option.none ∧ processCalls trace 0 = MAX_RETRIES + 1 := by
  have h0 := h 0 (by decide)
  have h1 := h 1 (by decide)
  have h2 := h 2 (by decide)
  have h3 := h 3 (by decide)
  have l0 : (0 : Nat) < MAX_RETRIES := by decide
  have l1 : (1 : Nat) < MAX_RETRIES := by decide
  have l2 : (2 : Nat) < MAX_RETRIES := by decide
  have l3 : ¬ (3 : Nat) < MAX_RETRIES := by decide
  constructor
  · rw [process_batch_fail_lt h0 l0, process_batch_fail_lt h1 l1,
      process_batch_fail_lt h2 l2, process_batch_fail_ge h3 l3]
  · rw [processCalls_fail_lt h0 l0, processCalls_fail_lt h1 l1,
      processCalls_fail_lt h2 l2, processCalls_fail_ge h3 l3]
    decide

theorem evaluate_result_cases (trace : Nat → JudgeAttempt) :
    ∀ n rc, MAX_RETRIES - rc ≤ n →
      evaluate_one_item trace rc = 50 ∨
        ∃ k, attemptScore (trace k) = Option.some (evaluate_one_item trace rc) := by
  intro n
  induction n with
  | zero =>
      intro rc h
      have hge : ¬ rc < MAX_RETRIES := by omega
      cases hs : attemptScore (trace rc) with
      | none => exact Or.inl (evaluate_one_item_fail_ge hs hge)
      | some s =>
          refine Or.inr ⟨rc, ?_⟩
          rw [evaluate_one_item_success hs, hs]
  | succ n ih =>
      intro rc h
      cases hs : attemptScore (trace rc) with
      | none =>
          by_cases hlt : rc < MAX_RETRIES
          · rw [evaluate_one_item_fail_lt hs hlt]
            exact ih (rc + 1) (by omega)
          · exact Or.inl (evaluate_one_item_fail_ge hs hlt)
      | some s =>
          refine Or.inr ⟨rc, ?_⟩
          rw [evaluate_one_item_success hs, hs]

/-!  ### Python string helpers shared by the scripts -/

/-- Truthiness of an `Optional[str]` in Python: `None` and the empty string
are falsy (the scripts test `if not base64_image`, `if result:`). -/
def pyTruthyStr (o : Option String) : Bool :=
  match o with
  | Option.none => false
  | Option.some s => !s.isEmpty

/-- Model of `str.lower()` as a per-character map (the characters the
scripts compare — the ASCII marker and filename extensions — are mapped
exactly as Python maps them). -/
def pyLower (l : List Char) : List Char :=
  l.map Char.toLower

/-- Model of `str.strip()`: drop leading and trailing whitespace. -/
def pyStrip (l : List Char) : List Char :=
  ((l.dropWhile Char.isWhitespace).reverse.dropWhile Char.isWhitespace).reverse

/-- String-valued wrapper of `pyStrip`. -/
def pyStripStr (s : String) : String :=
  String.mk (pyStrip s.toList)

/-- Index of the last literal dot of a filename, if any
(the scan of `os.path.splitext`). -/
def lastDotIndex (l : List Char) : Option Nat :=
  List.foldl (fun acc i => if l.get? i = some '.' then Option.some i else acc)
    Option.none (List.range l.length)

/-- Model of `os.path.splitext(filename)[0]` on a bare filename (the
arguments are `os.listdir` entries, so they contain no path separator):
cut at the last dot unless every character before it is itself a dot
(leading-dot files keep their full name, as in Python). -/
def splitextStem (l : List Char) : List Char :=
  match lastDotIndex l with
  | Option.none => l
  | Option.some i => if (l.take i).all (fun c => c = '.') then l else l.take i

/-- Embedding of `get_image_id` (both inference scripts): the digits of the
filename's stem, concatenated, as a string. -/
def get_image_id (filename : String) : String :=
  String.mk ((splitextStem filename.toList).filter Char.isDigit)

/-- Embedding of the inference scripts' `read_text_file`: the stripped file
contents, or `None` when reading raised. -/
def read_text_file_inf (contents : Option String) : Option String :=
  contents.map pyStripStr

/-- Embedding of the evaluation script's `read_text_file`: it differs from
the inference scripts' one in that the exception path returns the string
"Error reading file.", never `None` — so its caller's
`if text_content is None: continue` can never fire. -/
def read_text_file_eval (contents : Option String) : String :=
  match contents with
  | Option.some t => pyStripStr t
  | Option.none => "Error reading file."

/-!  ### Checkpoint / output file-system model

The scripts touch three files per scope: the checkpoint (whole-file
overwrite via `json.dump`, deletion via `os.remove`) and the permanent
output (whole-file overwrite).  A run is modelled as the list of
file-system events it performs, folded over the state. -/

inductive FsEvent (α : Type) where
  | writeCkpt (m : List (String × α))
  | deleteCkpt
  | writeOut (m : List (String × α))
deriving DecidableEq

structure FsState (α : Type) where
  checkpoint : Option (List (String × α))
  output : Option (List (String × α))
deriving DecidableEq

def applyEvent {α : Type} (st : FsState α) : FsEvent α → FsState α
  | FsEvent.writeCkpt m => { st with checkpoint := Option.some m }
  | FsEvent.deleteCkpt => { st with checkpoint := Option.none }
  | FsEvent.writeOut m => { st with output := Option.some m }

def applyEvents {α : Type} (st : FsState α) (evs : List (FsEvent α)) : FsState α :=
  evs.foldl applyEvent st

theorem applyEvents_append {α : Type} (st : FsState α) (l1 l2 : List (FsEvent α)) :
    applyEvents st (l1 ++ l2) = applyEvents (applyEvents st l1) l2 :=
  List.foldl_append applyEvent st l1 l2

/-- The key list of a JSON-object mapping (insertion ordered, like a
Python dict). -/
def keys {α : Type} (m : List (String × α)) : List String :=
  m.map Prod.fst

/-- Python dict assignment `m[k] = v`: overwrite in place if the key
exists, else append. -/
def upsert {α : Type} : List (String × α) → String → α → List (String × α)
  | [], k, v => [(k, v)]
  | (k0, v0) :: rest, k, v =>
      if k0 = k then (k, v) :: rest else (k0, v0) :: upsert rest k v

theorem mem_keys_upsert {α : Type} (m : List (String × α)) (k : String) (v : α) (a : String) :
    a ∈ keys (upsert m k v) ↔ a = k ∨ a ∈ keys m := by
  induction m with
  | nil => simp [upsert, keys]
  | cons hd tl ih =>
      obtain ⟨k0, v0⟩ := hd
      by_cases hk : k0 = k
      · subst hk
        simp [upsert, keys]
      · simp only [upsert, if_neg hk, keys, List.map_cons, List.mem_cons] at *
        tauto

theorem output_applyEvents_writeCkpts {α : Type} (evs : List (FsEvent α))
    (h : ∀ e ∈ evs, ∃ m, e = FsEvent.writeCkpt m) (st : FsState α) :
    (applyEvents st evs).output = st.output := by
  induction evs generalizing st with
  | nil => rfl
  | cons e rest ih =>
      obtain ⟨m, hm⟩ := h e (by simp)
      subst hm
      have := ih (fun x hx => h x (by simp [hx])) (applyEvent st (FsEvent.writeCkpt m))
      simpa [applyEvents, applyEvent] using this

/-!  ### The evaluation pipeline's per-file run (run_evaluation.py, `main`)

For one inference-output file: load the checkpoint, dispatch every item id
not already among its keys, merge each item's judge result, flush the
checkpoint whenever the accumulated size is a multiple of 20, write the
output file, then delete the checkpoint if it exists.  `oracle id n` is
the outcome of the n-th remote call for item `id`.  Items are their
(string) JSON keys; the associated text is read by `read_text_file_eval`,
which never returns `None`, so the `if text_content is None: continue`
test in the source skips nothing and dispatch is decided by the checkpoint
filter alone. -/

/-- The ids dispatched to the judge: items whose id is not already a key
of the loaded checkpoint (both sides are strings). -/
def evalTasks (ckpt : List (String × ℚ)) (items : List String) : List String :=
  items.filter (fun id => !(keys ckpt).contains id)

/-- The dispatch loop: evaluate each task, merge its score, and flush the
checkpoint when `len(eval_results) % 20 == 0`.  Returns the final mapping,
the file-system events, and the number of remote calls. -/
def runEvalSteps (oracle : String → Nat → JudgeAttempt) :
    List String → List (String × ℚ) → List (String × ℚ) × List (FsEvent ℚ) × Nat
  | [], acc => (acc, [], 0)
  | id :: rest, acc =>
      let acc2 := upsert acc id (evaluate_one_item (oracle id) 0)
      let evs := if acc2.length % 20 = 0 then [FsEvent.writeCkpt acc2] else []
      let r := runEvalSteps oracle rest acc2
      (r.1, evs ++ r.2.1, evaluateCalls (oracle id) 0 + r.2.2)

/-- One evaluation run over one scope: the events it performs and the
number of remote calls it makes.  When nothing remains, the source prints
"All items for this file have been evaluated." and moves on without
touching any file. -/
def runEvalFile (oracle : String → Nat → JudgeAttempt) (items : List String)
    (st : FsState ℚ) : List (FsEvent ℚ) × Nat :=
  let eval_results := st.checkpoint.getD []
  let tasks := evalTasks eval_results items
  if tasks.isEmpty then ([], 0)
  else
    let r := runEvalSteps oracle tasks eval_results
    let ckptOnDisk : Bool := st.checkpoint.isSome || !r.2.1.isEmpty
    (r.2.1 ++ [FsEvent.writeOut r.1] ++
      (if ckptOnDisk then [FsEvent.deleteCkpt] else []), r.2.2)

/-- The file-system state an evaluation run leaves behind. -/
def runEvalState (oracle : String → Nat → JudgeAttempt) (items : List String)
    (st : FsState ℚ) : FsState ℚ :=
  applyEvents st (runEvalFile oracle items st).1

/-!  ### The inference pipeline's run
(run_zeroshot_no_rationales.py, `main`, image-text path)

Per image file: skip when the paired text file is missing, when the image
fails to encode (or encodes to the falsy empty string), or when the text
read fails; otherwise call `process_batch` and, when the result is truthy,
record it under the image id; the checkpoint is rewritten after every
processed item.  The final save writes the output file; the checkpoint is
NOT removed. -/

/-- The per-item inputs of one inference work item. -/
structure ItemData where
  textExists : Bool
  textContents : Option String
  b64 : Option String

/-- The files dispatched by an inference run: files whose extracted id is
not among the loaded checkpoint's keys (as strings). -/
def infFilesToProcess (ckpt : List (String × String)) (all_files : List String) :
    List String :=
  all_files.filter (fun f => !(keys ckpt).contains (get_image_id f))

/-- The inference dispatch loop.  Returns the final mapping, the
file-system events and the number of remote calls. -/
def runInfSteps (data : String → ItemData) (trace : String → Nat → Option String) :
    List String → List (String × String) →
      List (String × String) × List (FsEvent String) × Nat
  | [], acc => (acc, [], 0)
  | f :: rest, acc =>
      if !(data f).textExists then runInfSteps data trace rest acc
      else if !(pyTruthyStr (data f).b64) ||
          (read_text_file_inf (data f).textContents).isNone then
        runInfSteps data trace rest acc
      else
        let result := process_batch (trace f) 0
        let acc2 :=
          if pyTruthyStr result then upsert acc (get_image_id f) (result.getD "")
          else acc
        let r := runInfSteps data trace rest acc2
        (r.1, FsEvent.writeCkpt acc2 :: r.2.1, processCalls (trace f) 0 + r.2.2)

/-- One inference run over one scope.  When nothing remains the source
prints "All items have already been processed. Exiting." and returns
before the final save; otherwise it processes the remaining files and
writes the output file as the last step (no checkpoint deletion). -/
def runInf (data : String → ItemData) (trace : String → Nat → Option String)
    (all_files : List String) (st : FsState String) : List (FsEvent String) × Nat :=
  let results := st.checkpoint.getD []
  let ftp := infFilesToProcess results all_files
  if ftp.isEmpty then ([], 0)
  else
    let r := runInfSteps data trace ftp results
    (r.2.1 ++ [FsEvent.writeOut r.1], r.2.2)

/-- The file-system state an inference run leaves behind. -/
def runInfState (data : String → ItemData) (trace : String → Nat → Option String)
    (all_files : List String) (st : FsState String) : FsState String :=
  applyEvents st (runInf data trace all_files st).1

/-!  ### Facts about the evaluation dispatch loop -/

theorem runEvalSteps_events_writeCkpt (oracle : String → Nat → JudgeAttempt) :
    ∀ (l : List String) (acc : List (String × ℚ)),
      ∀ e ∈ (runEvalSteps oracle l acc).2.1, ∃ m, e = FsEvent.writeCkpt m := by
  intro l
  induction l with
  | nil => intro acc e he; simp [runEvalSteps] at he
  | cons id rest ih =>
      intro acc e he
      simp only [runEvalSteps, List.mem_append] at he
      rcases he with he | he
      · by_cases h20 : (upsert acc id (evaluate_one_item (oracle id) 0)).length % 20 = 0
        · simp [h20] at he
          exact ⟨_, he⟩
        · simp [h20] at he
      · exact ih _ e he

theorem runEvalSteps_keys_mono (oracle : String → Nat → JudgeAttempt) :
    ∀ (l : List String) (acc : List (String × ℚ)) (a : String),
      a ∈ keys acc → a ∈ keys (runEvalSteps oracle l acc).1 := by
  intro l
  induction l with
  | nil => intro acc a ha; simpa [runEvalSteps] using ha
  | cons id rest ih =>
      intro acc a ha
      simp only [runEvalSteps]
      exact ih _ a ((mem_keys_upsert acc id _ a).2 (Or.inr ha))

theorem runEvalSteps_keys_of_mem (oracle : String → Nat → JudgeAttempt) :
    ∀ (l : List String) (acc : List (String × ℚ)) (id : String),
      id ∈ l → id ∈ keys (runEvalSteps oracle l acc).1 := by
  intro l
  induction l with
  | nil => intro acc id h; simp at h
  | cons hd rest ih =>
      intro acc id h
      rcases List.mem_cons.1 h with h | h
      · subst h
        simp only [runEvalSteps]
        exact runEvalSteps_keys_mono oracle rest _ id
          ((mem_keys_upsert acc id _ id).2 (Or.inl rfl))
      · simp only [runEvalSteps]
        exact ih _ id h

/-- Folding the event shape every finishing evaluation run produces:
checkpoint writes, then the output write, then the conditional checkpoint
deletion.  When the condition is false the run neither had nor wrote a
checkpoint. -/
theorem applyEvents_shape {α : Type} (st : FsState α) (steps : List (FsEvent α))
    (final : List (String × α)) (c : Bool)
    (hc : c = false → st.checkpoint = Option.none ∧ steps = []) :
    applyEvents st (steps ++ [FsEvent.writeOut final] ++
        (if c then [FsEvent.deleteCkpt] else [])) =
      ⟨Option.none, Option.some final⟩ := by
  cases c with
  | true =>
      rw [applyEvents_append, applyEvents_append]
      simp [applyEvents, applyEvent]
  | false =>
      obtain ⟨h1, h2⟩ := hc rfl
      subst h2
      cases st with
      | mk ck o =>
          simp only [Option.some.injEq] at *
          simp [applyEvents, applyEvent, h1]

/-- The state one evaluation run leaves: checkpoint gone, output written
with the final merged mapping (for any entry state with a non-empty task
list). -/
theorem runEvalState_spec (oracle : String → Nat → JudgeAttempt) (items : List String)
    (st : FsState ℚ) (h : evalTasks (st.checkpoint.getD []) items ≠ []) :
    runEvalState oracle items st =
      ⟨Option.none,
       Option.some (runEvalSteps oracle (evalTasks (st.checkpoint.getD []) items)
          (st.checkpoint.getD [])).1⟩ := by
  have hne : (evalTasks (st.checkpoint.getD []) items).isEmpty = false := by
    simpa [List.isEmpty_iff] using h
  rw [runEvalState]
  unfold runEvalFile
  simp only [hne, Bool.false_eq_true, if_false]
  refine applyEvents_shape st _ _ _ ?_
  intro hcf
  rcases Bool.or_eq_false_iff.1 hcf with ⟨h1, h2⟩
  constructor
  · exact Option.not_isSome_iff_eq_none.1 (by simp [h1])
  · have : ((runEvalSteps oracle (evalTasks (st.checkpoint.getD []) items)
      (st.checkpoint.getD [])).2.1).isEmpty = true := by
      simpa using h2
    exact List.isEmpty_iff.1 this

/-!  ### Claim theorems C1 - C3 -/

/-- C1: each retrying remote invoker (`evaluate_one_item`, `process_batch`)
invokes the remote endpoint at most `MAX_RETRIES + 1 = 4` times; a call
that fails transiently at most `MAX_RETRIES` times and then succeeds
returns the success result; when all `MAX_RETRIES + 1` attempts fail the
terminal fallback is returned (default score for the judge, `None` for
inference). -/
theorem retry_budget_c1 (jt : Nat → JudgeAttempt) (pt : Nat → Option String) :
    evaluateCalls jt 0 ≤ MAX_RETRIES + 1 ∧
    processCalls pt 0 ≤ MAX_RETRIES + 1 ∧
    (∀ K s, K ≤ MAX_RETRIES → (∀ j, j < K → attemptScore (jt j) = Option.none) →
      attemptScore (jt K) = Option.some s → evaluate_one_item jt 0 = s) ∧
    (∀ K s, K ≤ MAX_RETRIES → (∀ j, j < K → pt j = Option.none) →
      pt K = Option.some s → process_batch pt 0 = Option.some s) ∧
    ((∀ j, j ≤ MAX_RETRIES → attemptScore (jt j) = Option.none) →
      evaluate_one_item jt 0 = 50 ∧ evaluateCalls jt 0 = MAX_RETRIES + 1) ∧
    ((∀ j, j ≤ MAX_RETRIES → pt j = Option.none) →
      process_batch pt 0 = Option.none ∧ processCalls pt 0 = MAX_RETRIES + 1) := by
  refine ⟨evaluateCalls_le_aux jt MAX_RETRIES 0 (by omega),
    processCalls_le_aux pt MAX_RETRIES 0 (by omega), ?_, ?_,
    evaluate_all_fail jt, process_all_fail pt⟩
  · intro K s hK hfail hsucc
    exact (evaluate_first_success_aux jt s K K 0 (by omega) hK
      (fun j _ hj => hfail j hj) hsucc).1
  · intro K s hK hfail hsucc
    exact (process_first_success_aux pt s K K 0 (by omega) hK
      (fun j _ hj => hfail j hj) hsucc).1

/-- A judge-call trace that fails three times, then succeeds with 88. -/
def jtW : Nat → JudgeAttempt := fun n =>
  if n < 3 then JudgeAttempt.requestError else JudgeAttempt.parsed (Option.some 88)

/-- An inference-call trace that always fails. -/
def ptW : Nat → Option String := fun _ => Option.none

theorem retry_budget_c1_witness :
    evaluate_one_item jtW 0 = 88 ∧ process_batch ptW 0 = Option.none := by
  have h := retry_budget_c1 jtW ptW
  constructor
  · exact h.2.2.1 3 88 (by decide) (by decide) (by decide)
  · exact (h.2.2.2.2.2 (by intro j hj; rfl)).1

/-- C2: `clip_score` clamps every coercible score into `[0, 100]` and
rejects non-coercible input with `None`; inside `evaluate_one_item` a
parsed response whose score is rejected is treated as a transient failure
and retried, and a rejected score is never accepted: the returned value is
either the terminal default 50 or the accepted score of some attempt. -/
theorem clip_and_reject_c2 :
    (∀ s : ℚ, clip_score (Option.some s) = Option.some (max 0 (min 100 s))) ∧
    clip_score Option.none = Option.none ∧
    (∀ (trace : Nat → JudgeAttempt) (rc : Nat) (v : Option ℚ),
      trace rc = JudgeAttempt.parsed v → clip_score v = Option.none →
      rc < MAX_RETRIES →
      evaluate_one_item trace rc = evaluate_one_item trace (rc + 1)) ∧
    (∀ (trace : Nat → JudgeAttempt) (rc : Nat),
      evaluate_one_item trace rc = 50 ∨
        ∃ k, attemptScore (trace k) = Option.some (evaluate_one_item trace rc)) := by
  refine ⟨?_, rfl, ?_, ?_⟩
  · intro s
    by_cases h1 : s < 0
    · have hmin : min (100:ℚ) s = s := min_eq_right (by linarith)
      have hmax : max (0:ℚ) s = 0 := max_eq_left (by linarith)
      simp [clip_score, h1, hmin, hmax]
    · by_cases h2 : s > 100
      · have hmin : min (100:ℚ) s = 100 := min_eq_left (by linarith)
        have hmax : max (0:ℚ) (100:ℚ) = 100 := by norm_num
        simp [clip_score, h1, h2, hmin, hmax]
      · have hmin : min (100:ℚ) s = s := min_eq_right (by linarith)
        have hmax : max (0:ℚ) s = s := max_eq_right (by linarith)
        simp [clip_score, h1, h2, hmin, hmax]
  · intro trace rc v hparsed hclip hlt
    have hfail : attemptScore (trace rc) = Option.none := by
      rw [hparsed]
      simpa [attemptScore] using hclip
    exact evaluate_one_item_fail_lt hfail hlt
  · intro trace rc
    exact evaluate_result_cases trace MAX_RETRIES rc (by omega)

/-- A judge-call trace whose first attempt parses but has a non-numeric
score, and whose second attempt succeeds. -/
def jtRejW : Nat → JudgeAttempt := fun n =>
  if n = 0 then JudgeAttempt.parsed Option.none else JudgeAttempt.parsed (Option.some 60)

theorem clip_and_reject_c2_witness :
    clip_score (Option.some 150) = Option.some (max 0 (min 100 150)) ∧
    evaluate_one_item jtRejW 0 = evaluate_one_item jtRejW 1 := by
  constructor
  · exact clip_and_reject_c2.1 150
  · exact clip_and_reject_c2.2.2.1 jtRejW 0 Option.none rfl rfl (by decide)

/-- C3: an item whose evaluation exhausts all retries is given the fixed
default score 50 rather than being left unscored; consequently, after a
run with a non-empty task list, the output file maps every item id of the
processed inference file to a value. -/
theorem default_score_c3 :
    (∀ trace : Nat → JudgeAttempt,
      (∀ j, j ≤ MAX_RETRIES → attemptScore (trace j) = Option.none) →
      evaluate_one_item trace 0 = 50) ∧
    (∀ (oracle : String → Nat → JudgeAttempt) (items : List String) (st : FsState ℚ),
      evalTasks (st.checkpoint.getD []) items ≠ [] →
      ∃ final, (runEvalState oracle items st).output = Option.some final ∧
        ∀ id ∈ items, id ∈ keys final) := by
  constructor
  · intro trace h
    exact (evaluate_all_fail trace h).1
  · intro oracle items st h
    rw [runEvalState_spec oracle items st h]
    refine ⟨_, rfl, ?_⟩
    intro id hid
    by_cases hin : id ∈ keys (st.checkpoint.getD [])
    · exact runEvalSteps_keys_mono oracle _ _ id hin
    · refine runEvalSteps_keys_of_mem oracle _ _ id ?_
      simp only [evalTasks, List.mem_filter]
      refine ⟨hid, ?_⟩
      simpa using hin

/-- A judge-call trace that always returns malformed JSON. -/
def jtFailW : Nat → JudgeAttempt := fun _ => JudgeAttempt.jsonDecodeError

theorem default_score_c3_witness :
    evaluate_one_item jtFailW 0 = 50 ∧
    (∃ final,
      (runEvalState (fun _ _ => jtFailW 0) ["7"] ⟨Option.none, Option.none⟩).output =
        Option.some final ∧ ∀ id ∈ ["7"], id ∈ keys final) := by
  constructor
  · exact default_score_c3.1 jtFailW (by intro j hj; rfl)
  · exact default_score_c3.2 (fun _ _ => jtFailW 0) ["7"] ⟨Option.none, Option.none⟩
      (by decide)

/-!  ### Finalization ordering (claim C4) -/

/-- In an event list, every checkpoint deletion is preceded by an output
write. -/
def outputBeforeDelete {α : Type} (evs : List (FsEvent α)) : Prop :=
  ∀ pre post, evs = pre ++ FsEvent.deleteCkpt :: post → ∃ m, FsEvent.writeOut m ∈ pre

theorem outputBeforeDelete_shape {α : Type} (steps : List (FsEvent α))
    (hs : ∀ e ∈ steps, ∃ m, e = FsEvent.writeCkpt m) (final : List (String × α))
    (tail : List (FsEvent α)) :
    outputBeforeDelete (steps ++ FsEvent.writeOut final :: tail) := by
  induction steps with
  | nil =>
      intro pre post heq
      cases pre with
      | nil => simp at heq
      | cons x pre2 =>
          refine ⟨final, ?_⟩
          have hx : x = FsEvent.writeOut final := by
            have := congrArg (fun l => List.head? l) heq
            simpa using this.symm
          rw [hx]
          exact List.mem_cons_self _ _
  | cons e steps2 ih =>
      intro pre post heq
      cases pre with
      | nil =>
          exfalso
          obtain ⟨m, hm⟩ := hs e (by simp)
          have : e = FsEvent.deleteCkpt := by
            have := congrArg (fun l => List.head? l) heq
            simpa using this
          rw [hm] at this
          exact FsEvent.noConfusion this
      | cons x pre2 =>
          simp only [List.cons_append, List.cons.injEq] at heq
          obtain ⟨m, hm⟩ := ih (fun y hy => hs y (by simp [hy])) pre2 post heq.2
          exact ⟨m, List.mem_cons.2 (Or.inr hm)⟩

theorem runInfSteps_events_writeCkpt (data : String → ItemData)
    (trace : String → Nat → Option String) :
    ∀ (l : List String) (acc : List (String × String)),
      ∀ e ∈ (runInfSteps data trace l acc).2.1, ∃ m, e = FsEvent.writeCkpt m := by
  intro l
  induction l with
  | nil => intro acc e he; simp [runInfSteps] at he
  | cons f rest ih =>
      intro acc e he
      by_cases h1 : (data f).textExists
      · by_cases h2 : (!(pyTruthyStr (data f).b64) ||
            (read_text_file_inf (data f).textContents).isNone) = true
        · rw [runInfSteps] at he
          simp only [h1, Bool.not_true, Bool.false_eq_true, if_false, h2, if_true] at he
          exact ih _ e he
        · rw [runInfSteps] at he
          simp only [h1, Bool.not_true, Bool.false_eq_true, if_false, h2] at he
          rcases List.mem_cons.1 he with he | he
          · exact ⟨_, he⟩
          · exact ih _ e he
      · rw [runInfSteps] at he
        simp only [Bool.not_eq_true] at h1
        simp only [h1, Bool.not_false, if_true] at he
        exact ih _ e he

theorem applyEvents_ckpt_isSome {α : Type} (evs : List (FsEvent α))
    (h : ∀ e ∈ evs, e ≠ FsEvent.deleteCkpt) (st : FsState α)
    (hsome : st.checkpoint.isSome) : (applyEvents st evs).checkpoint.isSome := by
  induction evs generalizing st with
  | nil => exact hsome
  | cons e rest ih =>
      have hrest : ∀ x ∈ rest, x ≠ FsEvent.deleteCkpt := fun x hx => h x (by simp [hx])
      cases e with
      | writeCkpt m =>
          exact ih hrest _ (by simp [applyEvent])
      | deleteCkpt => exact absurd rfl (h _ (by simp))
      | writeOut m =>
          exact ih hrest _ (by simpa [applyEvent] using hsome)

theorem runInf_no_delete (data : String → ItemData)
    (trace : String → Nat → Option String) (files : List String) (st : FsState String) :
    ∀ e ∈ (runInf data trace files st).1, e ≠ FsEvent.deleteCkpt := by
  intro e he
  rw [runInf] at he
  by_cases hf : (infFilesToProcess (st.checkpoint.getD []) files).isEmpty = true
  · simp [hf] at he
  · simp only [hf, Bool.false_eq_true, if_false, List.mem_append] at he
    rcases he with he | he
    · obtain ⟨m, hm⟩ := runInfSteps_events_writeCkpt data trace _ _ e he
      rw [hm]
      exact fun hcontra => FsEvent.noConfusion hcontra
    · simp only [List.mem_singleton] at he
      rw [he]
      exact fun hcontra => FsEvent.noConfusion hcontra

theorem runInfState_output (data : String → ItemData)
    (trace : String → Nat → Option String) (files : List String) (st : FsState String)
    (h : infFilesToProcess (st.checkpoint.getD []) files ≠ []) :
    (runInfState data trace files st).output =
      Option.some (runInfSteps data trace
        (infFilesToProcess (st.checkpoint.getD []) files) (st.checkpoint.getD [])).1 := by
  have hne : (infFilesToProcess (st.checkpoint.getD []) files).isEmpty = false := by
    simpa [List.isEmpty_iff] using h
  rw [runInfState]
  unfold runInf
  simp only [hne, Bool.false_eq_true, if_false]
  rw [applyEvents_append]
  simp [applyEvents, applyEvent]

/-- C4 as stated is false: the claim's "any pipeline" includes the
inference scripts, but after their successful run the checkpoint file
still exists (their `main` never removes it).  Amended: for the evaluation
pipeline the checkpoint is gone and the output holds all processed items,
with the output write preceding the deletion; the inference pipelines
write the complete output but perform no checkpoint deletion at all. -/
theorem finalize_c4_amended :
    (∀ (oracle : String → Nat → JudgeAttempt) (items : List String) (st : FsState ℚ),
      evalTasks (st.checkpoint.getD []) items ≠ [] →
      (runEvalState oracle items st).checkpoint = Option.none ∧
      (∃ final, (runEvalState oracle items st).output = Option.some final ∧
        ∀ id ∈ items, id ∈ keys final) ∧
      outputBeforeDelete (runEvalFile oracle items st).1) ∧
    (∀ (data : String → ItemData) (trace : String → Nat → Option String)
        (files : List String) (st : FsState String),
      infFilesToProcess (st.checkpoint.getD []) files ≠ [] →
      (runInfState data trace files st).output =
        Option.some (runInfSteps data trace
          (infFilesToProcess (st.checkpoint.getD []) files) (st.checkpoint.getD [])).1 ∧
      (∀ e ∈ (runInf data trace files st).1, e ≠ FsEvent.deleteCkpt) ∧
      (st.checkpoint.isSome → (runInfState data trace files st).checkpoint.isSome)) := by
  constructor
  · intro oracle items st h
    refine ⟨?_, ?_, ?_⟩
    · rw [runEvalState_spec oracle items st h]
    · rw [runEvalState_spec oracle items st h]
      refine ⟨_, rfl, ?_⟩
      intro id hid
      by_cases hin : id ∈ keys (st.checkpoint.getD [])
      · exact runEvalSteps_keys_mono oracle _ _ id hin
      · refine runEvalSteps_keys_of_mem oracle _ _ id ?_
        simp only [evalTasks, List.mem_filter]
        refine ⟨hid, ?_⟩
        simpa using hin
    · have hne : (evalTasks (st.checkpoint.getD []) items).isEmpty = false := by
        simpa [List.isEmpty_iff] using h
      unfold runEvalFile
      simp only [hne, Bool.false_eq_true, if_false]
      have hassoc :
          (runEvalSteps oracle (evalTasks (st.checkpoint.getD []) items)
              (st.checkpoint.getD [])).2.1 ++
            [FsEvent.writeOut (runEvalSteps oracle
              (evalTasks (st.checkpoint.getD []) items) (st.checkpoint.getD [])).1] ++
            (if (st.checkpoint.isSome ||
                !(runEvalSteps oracle (evalTasks (st.checkpoint.getD []) items)
                  (st.checkpoint.getD [])).2.1.isEmpty) = true
              then [FsEvent.deleteCkpt] else []) =
          (runEvalSteps oracle (evalTasks (st.checkpoint.getD []) items)
              (st.checkpoint.getD [])).2.1 ++
            FsEvent.writeOut (runEvalSteps oracle
              (evalTasks (st.checkpoint.getD []) items) (st.checkpoint.getD [])).1 ::
            (if (st.checkpoint.isSome ||
                !(runEvalSteps oracle (evalTasks (st.checkpoint.getD []) items)
                  (st.checkpoint.getD [])).2.1.isEmpty) = true
              then [FsEvent.deleteCkpt] else []) := by
        simp
      rw [hassoc]
      exact outputBeforeDelete_shape _ (runEvalSteps_events_writeCkpt oracle _ _) _ _
  · intro data trace files st h
    refine ⟨runInfState_output data trace files st h, runInf_no_delete data trace files st, ?_⟩
    intro hsome
    exact applyEvents_ckpt_isSome _ (runInf_no_delete data trace files st) st hsome

/-- A per-item input table on which every item is present and valid. -/
def dataW : String → ItemData := fun _ =>
  { textExists := true, textContents := Option.some "text", b64 := Option.some "IMG" }

/-- A per-item remote trace that always succeeds with "resp". -/
def traceW : String → Nat → Option String := fun _ _ => Option.some "resp"

/-- C4 counterexample: a successful, uninterrupted inference run over one
file leaves its checkpoint file in place (the claim requires it to be
gone). -/
theorem finalize_c4_counterexample :
    (runInfState dataW traceW ["1.jpg"] ⟨Option.none, Option.none⟩).checkpoint =
        Option.some [("1", "resp")] ∧
    (runInfState dataW traceW ["1.jpg"] ⟨Option.none, Option.none⟩).output =
        Option.some [("1", "resp")] := by
  have hpb : process_batch (traceW "1.jpg") 0 = Option.some "resp" :=
    process_batch_success rfl
  have hpc : processCalls (traceW "1.jpg") 0 = 1 := processCalls_success rfl
  have h1 : runInf dataW traceW ["1.jpg"] ⟨Option.none, Option.none⟩ =
      ([FsEvent.writeCkpt [("1", "resp")], FsEvent.writeOut [("1", "resp")]], 1) := by
    rw [runInf]
    have hftp : infFilesToProcess ((Option.none : Option (List (String × String))).getD [])
        ["1.jpg"] = ["1.jpg"] := by decide
    rw [show ((⟨Option.none, Option.none⟩ : FsState String).checkpoint) = Option.none
      from rfl]
    rw [hftp]
    rw [runInfSteps]
    simp only [dataW, pyTruthyStr, read_text_file_inf, Option.map, Option.isNone,
      Bool.not_true, Bool.false_eq_true, if_false, Bool.or_self, hpb, hpc]
    rw [runInfSteps]
    simp [upsert, get_image_id, splitextStem, lastDotIndex]
    constructor
    · decide
    · rfl
  rw [runInfState, h1]
  constructor <;> rfl

theorem finalize_c4_witness :
    (runEvalState (fun _ _ => JudgeAttempt.parsed (Option.some 42)) ["1"]
        ⟨Option.none, Option.none⟩).checkpoint = Option.none := by
  exact (finalize_c4_amended.1 (fun _ _ => JudgeAttempt.parsed (Option.some 42)) ["1"]
    ⟨Option.none, Option.none⟩ (by decide)).1

/-- C5: an item is dispatched exactly when its identifier (a string on
both sides) is not among the loaded checkpoint's keys, and when nothing
remains the pipeline reports the scope complete and returns without
dispatching anything (no events, no remote calls). -/
theorem resumability_filter_c5 :
    (∀ (ckpt : List (String × ℚ)) (items : List String) (id : String),
      id ∈ evalTasks ckpt items ↔ id ∈ items ∧ id ∉ keys ckpt) ∧
    (∀ (oracle : String → Nat → JudgeAttempt) (items : List String) (st : FsState ℚ),
      evalTasks (st.checkpoint.getD []) items = [] →
      runEvalFile oracle items st = ([], 0)) ∧
    (∀ (ckpt : List (String × String)) (files : List String) (f : String),
      f ∈ infFilesToProcess ckpt files ↔ f ∈ files ∧ get_image_id f ∉ keys ckpt) ∧
    (∀ (data : String → ItemData) (trace : String → Nat → Option String)
        (files : List String) (st : FsState String),
      infFilesToProcess (st.checkpoint.getD []) files = [] →
      runInf data trace files st = ([], 0)) := by
  refine ⟨?_, ?_, ?_, ?_⟩
  · intro ckpt items id
    simp [evalTasks, List.mem_filter]
  · intro oracle items st h
    unfold runEvalFile
    simp [h]
  · intro ckpt files f
    simp [infFilesToProcess, List.mem_filter]
  · intro data trace files st h
    unfold runInf
    simp [h]

theorem resumability_filter_c5_witness :
    ("5" ∈ evalTasks [("2", (7:ℚ))] ["5", "2"] ↔
      "5" ∈ ["5", "2"] ∧ "5" ∉ keys [("2", (7:ℚ))]) ∧
    runInf dataW traceW [] ⟨Option.none, Option.none⟩ = ([], 0) := by
  constructor
  · exact resumability_filter_c5.1 [("2", 7)] ["5", "2"] "5"
  · exact resumability_filter_c5.2.2.2 dataW traceW [] ⟨Option.none, Option.none⟩ rfl

/-!  ### Idempotence (claim C6) -/

/-- An inference work item that is fully processable: its text file
exists, its image encodes to a truthy string, its text reads successfully,
and its remote call (after retries) yields a truthy result. -/
def infItemOk (data : String → ItemData) (trace : String → Nat → Option String)
    (f : String) : Prop :=
  (data f).textExists = true ∧
  pyTruthyStr (data f).b64 = true ∧
  (read_text_file_inf (data f).textContents).isNone = false ∧
  pyTruthyStr (process_batch (trace f) 0) = true

theorem runInfSteps_ok_state (data : String → ItemData)
    (trace : String → Nat → Option String) :
    ∀ (l : List String) (acc : List (String × String)) (st : FsState String),
      (∀ f ∈ l, infItemOk data trace f) → l ≠ [] →
      applyEvents st (runInfSteps data trace l acc).2.1 =
        ⟨Option.some (runInfSteps data trace l acc).1, st.output⟩ := by
  intro l
  induction l with
  | nil => intro acc st hok h; exact absurd rfl h
  | cons f rest ih =>
      intro acc st hok h
      obtain ⟨h1, h2, h3, h4⟩ := hok f (by simp)
      rw [runInfSteps]
      simp only [h1, Bool.not_true, Bool.false_eq_true, if_false, h2, h3,
        Bool.or_self, h4, if_true]
      by_cases hrest : rest = []
      · subst hrest
        rw [runInfSteps]
        simp [applyEvents, applyEvent]
      · have := ih (upsert acc (get_image_id f) ((process_batch (trace f) 0).getD ""))
          (applyEvent st (FsEvent.writeCkpt
            (upsert acc (get_image_id f) ((process_batch (trace f) 0).getD ""))))
          (fun g hg => hok g (by simp [hg])) hrest
        simpa [applyEvents, applyEvent] using this

theorem runInfSteps_keys_mono (data : String → ItemData)
    (trace : String → Nat → Option String) :
    ∀ (l : List String) (acc : List (String × String)) (a : String),
      a ∈ keys acc → a ∈ keys (runInfSteps data trace l acc).1 := by
  intro l
  induction l with
  | nil => intro acc a ha; simpa [runInfSteps] using ha
  | cons f rest ih =>
      intro acc a ha
      rw [runInfSteps]
      split
      · exact ih _ a ha
      · split
        · exact ih _ a ha
        · by_cases htr : pyTruthyStr (process_batch (trace f) 0) = true
          · simp only [htr, if_true]
            exact ih _ a ((mem_keys_upsert acc (get_image_id f) _ a).2 (Or.inr ha))
          · simp only [htr, if_false]
            exact ih _ a ha

theorem runInfSteps_ok_keys (data : String → ItemData)
    (trace : String → Nat → Option String) :
    ∀ (l : List String) (acc : List (String × String)) (f : String),
      (∀ g ∈ l, infItemOk data trace g) → f ∈ l →
      get_image_id f ∈ keys (runInfSteps data trace l acc).1 := by
  intro l
  induction l with
  | nil => intro acc f hok hf; simp at hf
  | cons hd rest ih =>
      intro acc f hok hf
      obtain ⟨h1, h2, h3, h4⟩ := hok hd (by simp)
      rw [runInfSteps]
      simp only [h1, Bool.not_true, Bool.false_eq_true, if_false, h2, h3,
        Bool.or_self, h4, if_true]
      rcases List.mem_cons.1 hf with hf | hf
      · subst hf
        exact runInfSteps_keys_mono data trace rest _ _
          ((mem_keys_upsert acc (get_image_id f) _ _).2 (Or.inl rfl))
      · exact ih _ f (fun g hg => hok g (by simp [hg])) hf

/-- The state a fully successful inference run leaves: checkpoint and
output both hold the final mapping. -/
theorem runInfState_ok (data : String → ItemData)
    (trace : String → Nat → Option String) (files : List String) (st : FsState String)
    (hok : ∀ f ∈ files, infItemOk data trace f)
    (h : infFilesToProcess (st.checkpoint.getD []) files ≠ []) :
    runInfState data trace files st =
      ⟨Option.some (runInfSteps data trace
          (infFilesToProcess (st.checkpoint.getD []) files) (st.checkpoint.getD [])).1,
       Option.some (runInfSteps data trace
          (infFilesToProcess (st.checkpoint.getD []) files) (st.checkpoint.getD [])).1⟩ := by
  have hne : (infFilesToProcess (st.checkpoint.getD []) files).isEmpty = false := by
    simpa [List.isEmpty_iff] using h
  rw [runInfState]
  unfold runInf
  simp only [hne, Bool.false_eq_true, if_false]
  rw [applyEvents_append]
  have hsub : ∀ f ∈ infFilesToProcess (st.checkpoint.getD []) files,
      infItemOk data trace f := by
    intro f hf
    exact hok f (List.mem_filter.1 hf).1
  rw [runInfSteps_ok_state data trace _ _ st hsub h]
  simp [applyEvents, applyEvent]

/-- C6 (amended): for the inference pipelines a second run after a fully
successful one is a genuine no-op (no events, no remote calls, state
unchanged) — their checkpoint survives and filters everything out.  For
the evaluation pipeline, re-running from a state without a checkpoint file
(fresh or COMPLETE) reproduces the identical final state under the same
judge oracle, but it does so by re-dispatching: see the counterexample for
the failure of "performs no work". -/
theorem idempotence_c6_amended :
    (∀ (data : String → ItemData) (trace : String → Nat → Option String)
        (files : List String) (st : FsState String),
      (∀ f ∈ files, infItemOk data trace f) →
      runInf data trace files (runInfState data trace files st) = ([], 0) ∧
      runInfState data trace files (runInfState data trace files st) =
        runInfState data trace files st) ∧
    (∀ (oracle : String → Nat → JudgeAttempt) (items : List String) (st : FsState ℚ),
      st.checkpoint = Option.none →
      runEvalState oracle items (runEvalState oracle items st) =
        runEvalState oracle items st) := by
  constructor
  · intro data trace files st hok
    by_cases hftp : infFilesToProcess (st.checkpoint.getD []) files = []
    · have hrun : runInf data trace files st = ([], 0) := by
        unfold runInf
        simp [hftp]
      have hst : runInfState data trace files st = st := by
        rw [runInfState, hrun]
        rfl
      rw [hst]
      exact ⟨hrun, by rw [hst]⟩
    · have hstate := runInfState_ok data trace files st hok hftp
      have hkeys : ∀ f ∈ files, get_image_id f ∈ keys (runInfSteps data trace
          (infFilesToProcess (st.checkpoint.getD []) files) (st.checkpoint.getD [])).1 := by
        intro f hf
        by_cases hmem : f ∈ infFilesToProcess (st.checkpoint.getD []) files
        · exact runInfSteps_ok_keys data trace _ _ f
            (fun g hg => hok g (List.mem_filter.1 hg).1) hmem
        · have hpred : ¬ (!(keys (st.checkpoint.getD [])).contains (get_image_id f)) = true := by
            intro hcontra
            exact hmem (List.mem_filter.2 ⟨hf, hcontra⟩)
          have : get_image_id f ∈ keys (st.checkpoint.getD []) := by
            simpa using hpred
          exact runInfSteps_keys_mono data trace _ _ _ this
      have hftp2 : infFilesToProcess
          ((runInfState data trace files st).checkpoint.getD []) files = [] := by
        rw [hstate]
        rw [infFilesToProcess]
        rw [List.filter_eq_nil_iff]
        intro f hf
        simp [hkeys f hf]
      constructor
      · unfold runInf
        simp [hftp2]
      · rw [runInfState, show runInf data trace files (runInfState data trace files st)
          = ([], 0) from by unfold runInf; simp [hftp2]]
        rfl
  · intro oracle items st hck
    by_cases hi : evalTasks (st.checkpoint.getD []) items = []
    · have hrun : runEvalFile oracle items st = ([], 0) := by
        unfold runEvalFile
        simp [hi]
      have hst : runEvalState oracle items st = st := by
        rw [runEvalState, hrun]
        rfl
      rw [hst]
      exact hst
    · have h1 := runEvalState_spec oracle items st hi
      rw [hck] at h1
      simp only [Option.getD_none] at h1
      have hi2 : evalTasks (((⟨Option.none, Option.some (runEvalSteps oracle
          (evalTasks [] items) []).1⟩ : FsState ℚ).checkpoint).getD []) items ≠ [] := by
        simpa [Option.getD_none] using (by rw [hck] at hi; simpa [Option.getD_none] using hi)
      have h2 := runEvalState_spec oracle items
        ⟨Option.none, Option.some (runEvalSteps oracle (evalTasks [] items) []).1⟩ hi2
      simp only [Option.getD_none] at h2
      rw [h1, h2]

/-- C6 counterexample: the evaluation pipeline entering in the COMPLETE
state (output file present, checkpoint file absent) re-dispatches its
item — the run makes a remote call instead of performing no work. -/
theorem idempotence_c6_counterexample :
    (runEvalFile (fun _ _ => JudgeAttempt.parsed (Option.some 37)) ["1"]
        ⟨Option.none, Option.some [("1", 37)]⟩).2 ≠ 0 := by
  have hatt : attemptScore (((fun (_ : String) (_ : Nat) =>
      JudgeAttempt.parsed (Option.some (37:ℚ))) "1") 0) = Option.some (37:ℚ) := by
    decide
  have hcalls : evaluateCalls ((fun (_ : String) (_ : Nat) =>
      JudgeAttempt.parsed (Option.some (37:ℚ))) "1") 0 = 1 :=
    evaluateCalls_success hatt
  unfold runEvalFile
  simp [evalTasks, keys, runEvalSteps, hcalls]

theorem idempotence_c6_witness :
    runInf dataW traceW ["1.jpg"]
      (runInfState dataW traceW ["1.jpg"] ⟨Option.none, Option.none⟩) = ([], 0) := by
  refine (idempotence_c6_amended.1 dataW traceW ["1.jpg"] ⟨Option.none, Option.none⟩ ?_).1
  intro f hf
  have hfx : f = "1.jpg" := by simpa using hf
  subst hfx
  refine ⟨rfl, rfl, rfl, ?_⟩
  rw [process_batch_success (rfl : traceW "1.jpg" 0 = Option.some "resp")]
  rfl

/-!  ### `parse_response_and_rationale` (run_zeroshot_with_rationales.py)

Text is modelled as `List Char`.  The source lowercases the response,
locates the first occurrence of the literal marker "your rationale:" in
the lowered text with `str.find`, and slices the ORIGINAL text at that
index (preserving its casing); without the marker it returns the whole
stripped text and a fixed sentinel. -/

/-- The split marker, `len = 15` in the source's slice arithmetic. -/
def markerL : List Char := "your rationale:".toList

/-- Model of `str.find` restricted to its use here: the first index at
which `needle` occurs in `haystack`, if any. -/
def findIndex (needle : List Char) : List Char → Option Nat
  | [] => if needle = [] then Option.some 0 else Option.none
  | c :: rest =>
      if needle.isPrefixOf (c :: rest) then Option.some 0
      else (findIndex needle rest).map (fun i => i + 1)

/-- Embedding of `parse_response_and_rationale`. -/
def parse_response_and_rationale (response_text : List Char) : List Char × List Char :=
  match findIndex markerL (pyLower response_text) with
  | Option.some i =>
      (pyStrip (response_text.take i),
       pyStrip (response_text.drop (i + markerL.length)))
  | Option.none =>
      (pyStrip response_text, "No explicit rationale provided.".toList)

theorem findIndex_none_spec (needle : List Char) :
    ∀ l, findIndex needle l = Option.none →
      ∀ j, ¬ needle.isPrefixOf (l.drop j) = true := by
  intro l
  induction l with
  | nil =>
      intro h j
      rw [findIndex] at h
      by_cases hn : needle = []
      · simp [hn] at h
      · intro hpre
        rcases needle with _ | ⟨c, cs⟩
        · exact hn rfl
        · simp [List.isPrefixOf] at hpre
  | cons c rest ih =>
      intro h j
      rw [findIndex] at h
      by_cases hp : needle.isPrefixOf (c :: rest) = true
      · simp [hp] at h
      · simp only [hp, Bool.false_eq_true, if_false] at h
        have hrest : findIndex needle rest = Option.none := by
          cases hfi : findIndex needle rest with
          | none => rfl
          | some i => rw [hfi] at h; simp at h
        cases j with
        | zero => simpa using hp
        | succ j2 => simpa using ih hrest j2

theorem findIndex_some_spec (needle : List Char) :
    ∀ l i, findIndex needle l = Option.some i →
      needle.isPrefixOf (l.drop i) = true ∧
      ∀ j, j < i → ¬ needle.isPrefixOf (l.drop j) = true := by
  intro l
  induction l with
  | nil =>
      intro i h
      rw [findIndex] at h
      by_cases hn : needle = []
      · simp only [hn, if_true, Option.some.injEq] at h
        subst h
        constructor
        · simp [hn, List.isPrefixOf]
        · intro j hj
          omega
      · simp [hn] at h
  | cons c rest ih =>
      intro i h
      rw [findIndex] at h
      by_cases hp : needle.isPrefixOf (c :: rest) = true
      · simp only [hp, if_true, Option.some.injEq] at h
        subst h
        exact ⟨by simpa using hp, fun j hj => absurd hj (by omega)⟩
      · simp only [hp, Bool.false_eq_true, if_false] at h
        cases hfi : findIndex needle rest with
        | none => rw [hfi] at h; simp at h
        | some i2 =>
            rw [hfi] at h
            simp at h
            subst h
            obtain ⟨hpre, hmin⟩ := ih i2 hfi
            constructor
            · simpa using hpre
            · intro j hj
              cases j with
              | zero => simpa using hp
              | succ j2 =>
                  have := hmin j2 (by omega)
                  simpa using this

theorem findIndex_eq_some_of_first (needle l : List Char) (i : Nat)
    (h1 : needle.isPrefixOf (l.drop i) = true)
    (h2 : ∀ j, j < i → ¬ needle.isPrefixOf (l.drop j) = true) :
    findIndex needle l = Option.some i := by
  cases hfi : findIndex needle l with
  | none => exact absurd h1 (findIndex_none_spec needle l hfi i)
  | some i2 =>
      obtain ⟨hpre, hmin⟩ := findIndex_some_spec needle l i2 hfi
      rcases Nat.lt_trichotomy i i2 with hlt | heq | hgt
      · exact absurd h1 (hmin i hlt)
      · rw [heq]
      · exact absurd hpre (h2 i2 hgt)

/-- C7: `parse_response_and_rationale` splits at the first
case-insensitive occurrence of "your rationale:" — the analysis is the
stripped original-cased text before the marker, the rationale the stripped
original-cased text after it — and without the marker it returns the whole
stripped text with the fixed sentinel. -/
theorem rationale_split_c7 (s : List Char) :
    ((∀ j, ¬ markerL.isPrefixOf ((pyLower s).drop j) = true) →
      parse_response_and_rationale s =
        (pyStrip s, "No explicit rationale provided.".toList)) ∧
    (∀ i, markerL.isPrefixOf ((pyLower s).drop i) = true →
      (∀ j, j < i → ¬ markerL.isPrefixOf ((pyLower s).drop j) = true) →
      parse_response_and_rationale s =
        (pyStrip (s.take i), pyStrip (s.drop (i + markerL.length)))) := by
  constructor
  · intro h
    have hfi : findIndex markerL (pyLower s) = Option.none := by
      cases hfi : findIndex markerL (pyLower s) with
      | none => rfl
      | some i =>
          exact absurd (findIndex_some_spec markerL (pyLower s) i hfi).1 (h i)
    rw [parse_response_and_rationale, hfi]
  · intro i hpre hmin
    have hfi : findIndex markerL (pyLower s) = Option.some i :=
      findIndex_eq_some_of_first markerL (pyLower s) i hpre hmin
    rw [parse_response_and_rationale, hfi]

/-- Scenario C input text. -/
def scenarioC : List Char := "Detailed analysis... Your Rationale: because X".toList

theorem rationale_split_c7_witness :
    parse_response_and_rationale scenarioC =
      ("Detailed analysis...".toList, "because X".toList) := by
  have h := (rationale_split_c7 scenarioC).2 21 (by decide) (by decide)
  rw [h]
  decide

/-!  ### Work-item enumeration order (claim C8)

Both inference scripts build
`sorted([f for f in os.listdir(p) if f.lower().endswith((".png", ".jpg",
".jpeg"))], key=get_image_id)`.  `get_image_id` returns a STRING of
digits, so Python compares the keys lexicographically by code point;
`sorted` is a stable sort.  Python's stable sort-by-key is modelled by
`List.insertionSort` (stable, like `sorted`), over an arbitrary
`os.listdir` result. -/

/-- Model of `f.lower().endswith((".png", ".jpg", ".jpeg"))`. -/
def hasImageExt (f : String) : Bool :=
  List.isSuffixOf (".png".toList) (pyLower f.toList) ||
  List.isSuffixOf (".jpg".toList) (pyLower f.toList) ||
  List.isSuffixOf (".jpeg".toList) (pyLower f.toList)

/-- Python string comparison: lexicographic by code point. -/
def lexLe : List Char → List Char → Bool
  | [], _ => true
  | _ :: _, [] => false
  | a :: as, b :: bs =>
      if a.toNat < b.toNat then true
      else if b.toNat < a.toNat then false
      else lexLe as bs

/-- The comparison `sorted(..., key=get_image_id)` performs between two
filenames. -/
def keyLe (a b : String) : Bool :=
  lexLe (get_image_id a).toList (get_image_id b).toList

/-- The same comparison as a relation (for the sort). -/
def keyLeP (a b : String) : Prop := keyLe a b = true

instance : DecidableRel keyLeP := fun a b =>
  inferInstanceAs (Decidable (keyLe a b = true))

theorem lexLe_total : ∀ a b : List Char, lexLe a b = true ∨ lexLe b a = true := by
  intro a
  induction a with
  | nil => intro b; exact Or.inl rfl
  | cons x xs ih =>
      intro b
      cases b with
      | nil => exact Or.inr rfl
      | cons y ys =>
          rcases Nat.lt_trichotomy x.toNat y.toNat with h | h | h
          · left
            rw [lexLe]
            simp [h]
          · have hxy : ¬ x.toNat < y.toNat := by omega
            have hyx : ¬ y.toNat < x.toNat := by omega
            rcases ih ys with h2 | h2
            · left
              rw [lexLe]
              simp [hxy, hyx, h2]
            · right
              rw [lexLe]
              simp [hxy, hyx, h2]
          · right
            rw [lexLe]
            simp [h]

theorem lexLe_trans :
    ∀ a b c : List Char, lexLe a b = true → lexLe b c = true → lexLe a c = true := by
  intro a
  induction a with
  | nil => intro b c h1 h2; rfl
  | cons x xs ih =>
      intro b c h1 h2
      cases b with
      | nil => rw [lexLe] at h1; exact absurd h1 (by simp)
      | cons y ys =>
          cases c with
          | nil => rw [lexLe] at h2; exact absurd h2 (by simp)
          | cons z zs =>
              rw [lexLe] at h1 h2 ⊢
              by_cases hxy : x.toNat < y.toNat
              · by_cases hyz : y.toNat < z.toNat
                · simp [show x.toNat < z.toNat by omega]
                · by_cases hzy : z.toNat < y.toNat
                  · simp [hyz, hzy] at h2
                  · simp [show x.toNat < z.toNat by omega]
              · by_cases hyx : y.toNat < x.toNat
                · simp [hxy, hyx] at h1
                · by_cases hyz : y.toNat < z.toNat
                  · simp [show x.toNat < z.toNat by omega]
                  · by_cases hzy : z.toNat < y.toNat
                    · simp [hyz, hzy] at h2
                    · have hxz : ¬ x.toNat < z.toNat := by omega
                      have hzx : ¬ z.toNat < x.toNat := by omega
                      simp only [hxy, hyx, if_false] at h1
                      simp only [hyz, hzy, if_false] at h2
                      simp only [hxz, hzx, if_false]
                      exact ih ys zs h1 h2

instance : IsTotal String keyLeP :=
  ⟨fun a b => lexLe_total (get_image_id a).toList (get_image_id b).toList⟩

instance : IsTrans String keyLeP :=
  ⟨fun a b c h1 h2 =>
    lexLe_trans (get_image_id a).toList (get_image_id b).toList
      (get_image_id c).toList h1 h2⟩

/-- The enumerated work items of the inference scripts: image files of the
data directory, sorted by the digit-string key. -/
def allImageFiles (listing : List String) : List String :=
  List.insertionSort keyLeP (listing.filter hasImageExt)

/-- Following the claim's words: the numeric value of the identifier
embedded in a filename. -/
def specNumericId (f : String) : Nat :=
  (get_image_id f).toList.foldl (fun acc c => acc * 10 + (c.toNat - 48)) 0

/-- Following the claim's words: a file list ordered by the numeric value
of the embedded identifiers. -/
def numericallyOrdered (l : List String) : Prop :=
  l.Pairwise (fun a b => specNumericId a ≤ specNumericId b)

instance (l : List String) : Decidable (numericallyOrdered l) :=
  inferInstanceAs (Decidable (l.Pairwise _))

/-- The numeric value of a digit string, accumulator form. -/
def digitsVal (l : List Char) : Nat :=
  l.foldl (fun acc c => acc * 10 + (c.toNat - 48)) 0

theorem digitsVal_acc (l : List Char) :
    ∀ acc, l.foldl (fun a c => a * 10 + (c.toNat - 48)) acc =
      acc * 10 ^ l.length + digitsVal l := by
  induction l with
  | nil => intro acc; simp [digitsVal]
  | cons c rest ih =>
      intro acc
      simp only [List.foldl_cons, digitsVal, List.length_cons]
      rw [ih (acc * 10 + (c.toNat - 48)), ih (0 * 10 + (c.toNat - 48))]
      ring

theorem char_digit_bounds (c : Char) (h : c.isDigit = true) :
    48 ≤ c.toNat ∧ c.toNat ≤ 57 := by
  simp only [Char.isDigit, Bool.and_eq_true, decide_eq_true_eq] at h
  obtain ⟨h1, h2⟩ := h
  constructor
  · have hb := BitVec.le_def.mp (UInt32.le_def.mp h1)
    simpa [Char.toNat] using hb
  · have hb := BitVec.le_def.mp (UInt32.le_def.mp h2)
    simpa [Char.toNat] using hb

theorem digitsVal_lt (l : List Char) (h : ∀ c ∈ l, c.isDigit = true) :
    digitsVal l < 10 ^ l.length := by
  induction l with
  | nil => simp [digitsVal]
  | cons c rest ih =>
      have hd : c.toNat - 48 ≤ 9 := by
        have := char_digit_bounds c (h c (by simp))
        omega
      have hrest := ih (fun x hx => h x (by simp [hx]))
      have hv : digitsVal (c :: rest) =
          (c.toNat - 48) * 10 ^ rest.length + digitsVal rest := by
        have h0 : digitsVal (c :: rest) =
            List.foldl (fun a c2 => a * 10 + (c2.toNat - 48))
              (0 * 10 + (c.toNat - 48)) rest := rfl
        rw [h0, digitsVal_acc]
        ring
      calc digitsVal (c :: rest)
          = (c.toNat - 48) * 10 ^ rest.length + digitsVal rest := hv
        _ < (c.toNat - 48) * 10 ^ rest.length + 10 ^ rest.length :=
            Nat.add_lt_add_left hrest _
        _ = (c.toNat - 48 + 1) * 10 ^ rest.length := by ring
        _ ≤ 10 * 10 ^ rest.length :=
            Nat.mul_le_mul_right _ (by omega)
        _ = 10 ^ (rest.length + 1) := by ring
        _ = 10 ^ (c :: rest).length := by rw [List.length_cons]

theorem lexLe_digits_le :
    ∀ la lb : List Char, (∀ c ∈ la, c.isDigit = true) → (∀ c ∈ lb, c.isDigit = true) →
      la.length = lb.length → lexLe la lb = true → digitsVal la ≤ digitsVal lb := by
  intro la
  induction la with
  | nil =>
      intro lb hda hdb hlen hle
      cases lb with
      | nil => exact le_refl _
      | cons y ys => simp at hlen
  | cons x xs ih =>
      intro lb hda hdb hlen hle
      cases lb with
      | nil => simp at hlen
      | cons y ys =>
          have hlen2 : xs.length = ys.length := by simpa using hlen
          have hx := char_digit_bounds x (hda x (by simp))
          have hy := char_digit_bounds y (hdb y (by simp))
          have hvx : digitsVal (x :: xs) =
              (x.toNat - 48) * 10 ^ xs.length + digitsVal xs := by
            have h0 : digitsVal (x :: xs) =
                List.foldl (fun a c2 => a * 10 + (c2.toNat - 48))
                  (0 * 10 + (x.toNat - 48)) xs := rfl
            rw [h0, digitsVal_acc]
            ring
          have hvy : digitsVal (y :: ys) =
              (y.toNat - 48) * 10 ^ ys.length + digitsVal ys := by
            have h0 : digitsVal (y :: ys) =
                List.foldl (fun a c2 => a * 10 + (c2.toNat - 48))
                  (0 * 10 + (y.toNat - 48)) ys := rfl
            rw [h0, digitsVal_acc]
            ring
          rw [lexLe] at hle
          by_cases hxy : x.toNat < y.toNat
          · have hdlt : x.toNat - 48 < y.toNat - 48 := by omega
            have hbx := digitsVal_lt xs (fun c hc => hda c (by simp [hc]))
            have hby : 0 ≤ digitsVal ys := Nat.zero_le _
            rw [hvx, hvy, hlen2]
            refine le_of_lt ?_
            calc (x.toNat - 48) * 10 ^ ys.length + digitsVal xs
                < (x.toNat - 48) * 10 ^ ys.length + 10 ^ ys.length := by
                  rw [← hlen2]
                  exact Nat.add_lt_add_left hbx _
              _ = (x.toNat - 48 + 1) * 10 ^ ys.length := by ring
              _ ≤ (y.toNat - 48) * 10 ^ ys.length :=
                  Nat.mul_le_mul_right _ (by omega)
              _ ≤ (y.toNat - 48) * 10 ^ ys.length + digitsVal ys := Nat.le_add_right _ _
          · by_cases hyx : y.toNat < x.toNat
            · simp [hxy, hyx] at hle
            · have hEq : x.toNat = y.toNat := by omega
              simp only [hxy, hyx, if_false] at hle
              have htail := ih ys (fun c hc => hda c (by simp [hc]))
                (fun c hc => hdb c (by simp [hc])) hlen2 hle
              rw [hvx, hvy, hEq, hlen2]
              omega

theorem get_image_id_digits (f : String) :
    ∀ c ∈ (get_image_id f).toList, c.isDigit = true := by
  intro c hc
  have : (get_image_id f).toList =
      (splitextStem f.toList).filter Char.isDigit := rfl
  rw [this] at hc
  exact (List.mem_filter.1 hc).2

/-- Following the claim's words, with the filenames' ids compared by
numeric value; the as-stated claim asserts `numericallyOrdered` of the
enumerator output for every listing. -/
theorem enumerator_order_c8_amended (listing : List String) :
    List.Pairwise keyLeP (allImageFiles listing) ∧
    (allImageFiles listing).Perm (listing.filter hasImageExt) ∧
    (∀ a b : String, keyLe a b = true →
      (get_image_id a).length = (get_image_id b).length →
      specNumericId a ≤ specNumericId b) := by
  refine ⟨List.sorted_insertionSort keyLeP _, List.perm_insertionSort keyLeP _, ?_⟩
  intro a b hle hlen
  have hlen2 : (get_image_id a).toList.length = (get_image_id b).toList.length :=
    hlen
  exact lexLe_digits_le (get_image_id a).toList (get_image_id b).toList
    (get_image_id_digits a) (get_image_id_digits b) hlen2 hle

/-- C8 counterexample: with files "2.jpg" and "10.jpg" the enumerator
produces "10.jpg" before "2.jpg" (lexicographic digit-string order), which
is not ordered by the numeric value of the identifiers. -/
theorem enumerator_order_c8_counterexample :
    allImageFiles ["2.jpg", "10.jpg"] = ["10.jpg", "2.jpg"] ∧
    ¬ numericallyOrdered (allImageFiles ["2.jpg", "10.jpg"]) := by
  constructor
  · rfl
  · decide

theorem enumerator_order_c8_witness :
    List.Pairwise keyLeP (allImageFiles ["2.jpg", "10.jpg"]) ∧
    specNumericId "3.jpg" ≤ specNumericId "7.jpg" := by
  constructor
  · exact (enumerator_order_c8_amended ["2.jpg", "10.jpg"]).1
  · exact (enumerator_order_c8_amended []).2.2 "3.jpg" "7.jpg" (by decide) (by decide)

/-!  ### `download_image` (download_data.py, claim C9)

One call per task (no retry loop): if the file already exists, return
immediately; otherwise GET the URL (any request exception aborts with
nothing written), write the bytes, then verify the image with PIL and
delete the file when verification fails. -/

inductive DlEvent where
  | httpGet
  | writeFile
  | removeFile
deriving DecidableEq

/-- Outcome of the single HTTP request: a network/status error, or a body
whose bytes do or do not verify as a well-formed image. -/
inductive DownloadOutcome where
  | netError
  | bytes (valid : Bool)
deriving DecidableEq

/-- Embedding of `download_image`: the events performed and whether the
file exists afterwards. -/
def download_image (fileExists : Bool) (outcome : DownloadOutcome) :
    List DlEvent × Bool :=
  if fileExists then ([], true)
  else
    match outcome with
    | DownloadOutcome.netError => ([DlEvent.httpGet], false)
    | DownloadOutcome.bytes valid =>
        if valid then ([DlEvent.httpGet, DlEvent.writeFile], true)
        else ([DlEvent.httpGet, DlEvent.writeFile, DlEvent.removeFile], false)

/-- C9: when downloaded bytes are written but fail image validation, the
file is written then deleted (so it does not exist afterwards), only one
HTTP request was made in that run (no retry), and — because the skip
condition is the file's existence — a future run attempts the same
download again (it performs an HTTP request rather than skipping). -/
theorem download_validation_c9 (outcome2 : DownloadOutcome) :
    download_image false (DownloadOutcome.bytes false) =
      ([DlEvent.httpGet, DlEvent.writeFile, DlEvent.removeFile], false) ∧
    (download_image false (DownloadOutcome.bytes false)).1.count DlEvent.httpGet = 1 ∧
    (∀ o : DownloadOutcome, download_image true o = ([], true)) ∧
    DlEvent.httpGet ∈
      (download_image (download_image false (DownloadOutcome.bytes false)).2
        outcome2).1 := by
  refine ⟨rfl, rfl, fun o => rfl, ?_⟩
  cases outcome2 with
  | netError => simp [download_image]
  | bytes valid =>
      cases valid with
      | true => simp [download_image]
      | false => simp [download_image]

theorem download_validation_c9_witness :
    DlEvent.httpGet ∈
      (download_image (download_image false (DownloadOutcome.bytes false)).2
        DownloadOutcome.netError).1 :=
  (download_validation_c9 DownloadOutcome.netError).2.2.2

/-!  ### Image-only batch recording (claim C10)

In the no-rationales script's image-only path, the single batch response
is recorded under the id of EVERY filename of the batch — including
filenames whose image failed to encode and was never sent; the
with-rationales script records it only under the filenames that encoded
successfully (`valid_filenames`).  Both record only when at least one
image encoded (otherwise the batch is skipped before the call) and the
result is truthy. -/

/-- The pairs recorded by one image-only batch of
run_zeroshot_no_rationales.py (`enc f` is `encode_image`'s outcome for
file `f`, `trace` the batch's remote-call trace). -/
def noRatBatchRecord (enc : String → Option String)
    (trace : Nat → Option String) (batch : List String) : List (String × String) :=
  let contentImgs := batch.filter (fun f => pyTruthyStr (enc f))
  if contentImgs.isEmpty then []
  else
    let result := process_batch trace 0
    if pyTruthyStr result then batch.map (fun f => (get_image_id f, result.getD ""))
    else []

/-- The pairs recorded by one image-only batch of
run_zeroshot_with_rationales.py: only the successfully encoded
`valid_filenames`, with the response split into analysis and rationale. -/
def withRatBatchRecord (enc : String → Option String)
    (trace : Nat → Option String) (batch : List String) :
    List (String × (List Char × List Char)) :=
  let valid_filenames := batch.filter (fun f => pyTruthyStr (enc f))
  if valid_filenames.isEmpty then []
  else
    let result := process_batch trace 0
    if pyTruthyStr result then
      valid_filenames.map (fun f =>
        (get_image_id f, parse_response_and_rationale (result.getD "").toList))
    else []

/-- C10: whenever some image of the batch encodes and the API call yields
a (truthy) result, the no-rationales script records the single response
under every filename of the batch — encode failures included — while the
with-rationales script records it exactly under the successfully encoded
filenames. -/
theorem batch_recording_c10 (enc : String → Option String)
    (trace : Nat → Option String) (batch : List String)
    (henc : ∃ f ∈ batch, pyTruthyStr (enc f) = true)
    (hres : pyTruthyStr (process_batch trace 0) = true) :
    (∀ f ∈ batch, get_image_id f ∈ keys (noRatBatchRecord enc trace batch)) ∧
    (∀ id : String, id ∈ keys (withRatBatchRecord enc trace batch) ↔
      ∃ f ∈ batch, pyTruthyStr (enc f) = true ∧ id = get_image_id f) := by
  have hfilter : (batch.filter (fun f => pyTruthyStr (enc f))).isEmpty = false := by
    obtain ⟨f, hf, henf⟩ := henc
    have : f ∈ batch.filter (fun f => pyTruthyStr (enc f)) :=
      List.mem_filter.2 ⟨hf, henf⟩
    rcases hx : batch.filter (fun f => pyTruthyStr (enc f)) with _ | ⟨a, l⟩
    · rw [hx] at this; simp at this
    · rfl
  constructor
  · intro f hf
    rw [noRatBatchRecord]
    simp only [hfilter, Bool.false_eq_true, if_false, hres, if_true]
    simp only [keys, List.map_map, List.mem_map]
    exact ⟨f, hf, rfl⟩
  · intro id
    rw [withRatBatchRecord]
    simp only [hfilter, Bool.false_eq_true, if_false, hres, if_true]
    simp only [keys, List.map_map, List.mem_map]
    constructor
    · rintro ⟨f, hf, rfl⟩
      have hmem := List.mem_filter.1 hf
      exact ⟨f, hmem.1, by simpa using hmem.2, rfl⟩
    · rintro ⟨f, hf, henf, rfl⟩
      exact ⟨f, List.mem_filter.2 ⟨hf, henf⟩, rfl⟩

/-- An encoder that succeeds on "1.jpg" and fails on "2.jpg". -/
def encW : String → Option String := fun f =>
  if f = "1.jpg" then Option.some "B64" else Option.none

/-- A batch remote trace succeeding immediately. -/
def btraceW : Nat → Option String := fun _ => Option.some "resp"

theorem batch_recording_c10_witness :
    "2" ∈ keys (noRatBatchRecord encW btraceW ["1.jpg", "2.jpg"]) ∧
    ¬ "2" ∈ keys (withRatBatchRecord encW btraceW ["1.jpg", "2.jpg"]) := by
  have h := batch_recording_c10 encW btraceW ["1.jpg", "2.jpg"]
    ⟨"1.jpg", by simp, rfl⟩
    (by rw [process_batch_success (rfl : btraceW 0 = Option.some "resp")]; rfl)
  constructor
  · exact h.1 "2.jpg" (by simp)
  · intro hmem
    obtain ⟨f, hf, henf, hid⟩ := (h.2 "2").1 hmem
    rcases List.mem_cons.1 hf with hf1 | hf1
    · subst hf1
      exact absurd hid (by decide)
    · have : f = "2.jpg" := by simpa using hf1
      subst this
      exact absurd henf (by decide)

end VLURes
